import Mathlib

/-!
Shallow embedding of the capacity-bounded registration and waitlist engine of
`src/backend/services.py` (class `RegistrationService`) together with the
storage primitives of `src/backend/repository.py` (class `Repository`) that it
calls.  The engine works on a single DynamoDB table keyed by (PK, SK); all of
the claims are about the registrations of one fixed event, so the state is the
slice of the table belonging to that event: the event metadata item, the
registration items under the event partition (which DynamoDB keeps sorted by
their sort key `REG#<userId>`, i.e. lexicographically by user id), the set of
existing users, and a clock supplying the monotone `registeredAt` timestamps.
-/

namespace VaspReg

/-! ### String order

DynamoDB returns the items of a `query` in ascending sort-key order; for the
registration items of one event the sort key is `REG#<userId>`, so the query
order is the lexicographic order of the user ids.  The built-in `String`
comparison of Lean does not reduce inside the kernel, so we spell out the
lexicographic order on code points; it agrees with the byte order DynamoDB
uses for the ASCII ids appearing here. -/

/-- Strict order on characters by code point. -/
def charLt (a b : Char) : Bool := decide (a.toNat < b.toNat)

/-- Lexicographic strict order on lists of characters. -/
def listCharLt : List Char → List Char → Bool
  | [], [] => false
  | [], _ :: _ => true
  | _ :: _, [] => false
  | a :: as, b :: bs => charLt a b || (a.toNat == b.toNat && listCharLt as bs)

/-- Lexicographic strict order on strings (the DynamoDB sort-key order). -/
def strLt (a b : String) : Bool := listCharLt a.data b.data


/-! ### Data model

`repository.py` stores three kinds of items.  A registration item
(`Repository.create_registration`, lines 192-218) carries `userId`,
`registrationStatus` (the string `"confirmed"` or `"waitlisted"`),
`registeredAt` and `waitlistPosition`; timestamps are modelled by naturals of
a per-state clock since only their relative order matters.  The event
metadata item (`Repository.create_event`, lines 108-130) carries — besides
cosmetic fields that the engine never reads — `eventCapacity`,
`waitlistEnabled` and `registrationCount`, created with
`registrationCount = 0`. -/

/-- One registration item of the table, as written by
`Repository.create_registration`. -/
structure RegRec where
  userId : String
  registrationStatus : String
  registeredAt : Nat
  waitlistPosition : Option Nat
deriving Repr, DecidableEq

/-- The engine-relevant fields of the event metadata item. -/
structure EventRec where
  eventCapacity : Nat
  waitlistEnabled : Bool
  registrationCount : Nat
deriving Repr, DecidableEq

/-- The slice of the store belonging to one event: its metadata item (absent
if the event was deleted), its registration items in sort-key order, the set
of existing user ids, and the timestamp clock. -/
structure EvState where
  event : Option EventRec
  regs : List RegRec
  users : List String
  clock : Nat
deriving Repr, DecidableEq

/-! ### Repository operations (`src/backend/repository.py`) -/

/-- Model of `table.put_item` for a registration item
(`Repository.create_registration`): keyed overwrite into the list that the
store keeps ordered by sort key `REG#<userId>`. -/
def put_registration (r : RegRec) : List RegRec → List RegRec
  | [] => [r]
  | x :: xs =>
    if strLt x.userId r.userId then x :: put_registration r xs
    else if x.userId = r.userId then r :: xs
    else r :: x :: xs

/-- Model of `Repository.get_registration` / `get_registration_raw`
(lines 171-190): point lookup by (eventId, userId). -/
def get_registration (u : String) : List RegRec → Option RegRec
  | [] => none
  | x :: xs => if x.userId = u then some x else get_registration u xs

/-- Model of `Repository.delete_registration` (lines 220-226):
`table.delete_item` removes the item with the given key. -/
def delete_registration (u : String) : List RegRec → List RegRec
  | [] => []
  | x :: xs => if x.userId = u then xs else x :: delete_registration u xs

/-- Model of `Repository.update_registration_status` (lines 267-282):
`table.update_item` sets `registrationStatus` and `waitlistPosition` on the
item with the given key (in every code path the target item exists). -/
def update_registration_status (u status : String) (pos : Option Nat) :
    List RegRec → List RegRec
  | [] => []
  | x :: xs =>
    if x.userId = u then
      { x with registrationStatus := status, waitlistPosition := pos } :: xs
    else x :: update_registration_status u status pos xs

/-- Model of `Repository.get_event_registrations` with a status filter
(lines 228-247): a `query` over the event partition returns the registration
items in sort-key order and the `FilterExpression` keeps those with the given
`registrationStatus`. -/
def get_event_registrations (status : String) (regs : List RegRec) :
    List RegRec :=
  regs.filter (fun r => r.registrationStatus = status)

/-- Sort key used by `Repository.get_waitlisted_registrations` (line 252):
Python's `x.get("waitlistPosition") or 999` maps both a missing/None position
and a position of 0 (falsy values) to 999. -/
def posKey (r : RegRec) : Nat :=
  match r.waitlistPosition with
  | none => 999
  | some 0 => 999
  | some p => p

/-- Insertion step of a stable sort by `posKey`: the inserted element comes
from earlier in the input than everything in the already-sorted suffix, so it
is placed before the first element whose key is not smaller. -/
def insertPosSorted (r : RegRec) : List RegRec → List RegRec
  | [] => [r]
  | x :: xs => if posKey x < posKey r then x :: insertPosSorted r xs
               else r :: x :: xs

/-- Stable sort by `posKey`, extensionally equal to Python's stable
`list.sort(key=...)` on line 252 of `repository.py`. -/
def sortByPos : List RegRec → List RegRec
  | [] => []
  | x :: xs => insertPosSorted x (sortByPos xs)

/-- Model of `Repository.get_waitlisted_registrations` (lines 249-253): the
waitlisted registrations of the event, obtained in user-id (sort-key) order
and then stably sorted by `posKey`. -/
def get_waitlisted_registrations (regs : List RegRec) : List RegRec :=
  sortByPos (get_event_registrations "waitlisted" regs)

/-! ### Service operations (`src/backend/services.py`) -/

/-- The typed errors raised by `RegistrationService` (HTTP 404/400 with the
corresponding detail strings). -/
inductive SvcError where
  | eventNotFound
  | userNotFound
  | alreadyRegistered
  | eventFull
  | notRegistered
deriving Repr, DecidableEq

/-- Model of `RegistrationService.register` (services.py lines 143-200),
restricted to the fixed event.  Mirrors the source order: event lookup, user
existence check, duplicate-registration check, then the capacity decision;
`max(0, ...)` never appears here and the count update happens only on the
confirmed branch. -/
def register (s : EvState) (userId : String) :
    Except SvcError (RegRec × EvState) :=
  match s.event with
  | none => Except.error SvcError.eventNotFound
  | some event =>
    if s.users.contains userId then
      match get_registration userId s.regs with
      | some _ => Except.error SvcError.alreadyRegistered
      | none =>
        let capacity := event.eventCapacity
        let reg_count := event.registrationCount
        if reg_count < capacity then
          let r : RegRec := ⟨userId, "confirmed", s.clock, none⟩
          Except.ok (r, { s with
            regs := put_registration r s.regs,
            event := some ({ event with registrationCount := reg_count + 1 }),
            clock := s.clock + 1 })
        else if event.waitlistEnabled then
          let waitlisted := get_waitlisted_registrations s.regs
          let r : RegRec := ⟨userId, "waitlisted", s.clock,
            some (waitlisted.length + 1)⟩
          Except.ok (r, { s with
            regs := put_registration r s.regs,
            clock := s.clock + 1 })
        else Except.error SvcError.eventFull
    else Except.error SvcError.userNotFound

/-- Model of `RegistrationService.unregister` (services.py lines 203-247).
The registration is deleted first; if it was confirmed and the event still
exists, the head of the waitlist (if any) is promoted, otherwise the count is
decremented — Python's `max(0, reg_count - 1)` coincides with truncated
subtraction on naturals. -/
def unregister (s : EvState) (userId : String) : Except SvcError EvState :=
  match get_registration userId s.regs with
  | none => Except.error SvcError.notRegistered
  | some reg =>
    let s1 : EvState := { s with regs := delete_registration userId s.regs }
    if reg.registrationStatus = "confirmed" then
      match s1.event with
      | none => Except.ok s1
      | some event =>
        match get_waitlisted_registrations s1.regs with
        | [] =>
          let event' : EventRec :=
            { event with registrationCount := event.registrationCount - 1 }
          Except.ok { s1 with event := some event' }
        | first :: _ =>
          Except.ok { s1 with
            regs := update_registration_status first.userId "confirmed" none
              s1.regs }
    else Except.ok s1

/-! ### Sequences of calls -/

/-- One call of the operation surface for the fixed event. -/
inductive Op where
  | reg (u : String)
  | unreg (u : String)
deriving Repr, DecidableEq

/-- Effect of one call on the state; a failed call raises before any write,
leaving the store unchanged. -/
def step (s : EvState) : Op → EvState
  | Op.reg u =>
    match register s u with
    | Except.ok (_, s') => s'
    | Except.error _ => s
  | Op.unreg u =>
    match unregister s u with
    | Except.ok s' => s'
    | Except.error _ => s

/-- Run a sequence of calls, each completing before the next begins. -/
def run (s : EvState) : List Op → EvState
  | [] => s
  | op :: ops => run (step s op) ops

/-- State right after `EventService.create_event` stored the event
(`registrationCount = 0`, no registrations) with a given population of
existing users. -/
def initState (capacity : Nat) (wl : Bool) (users : List String) : EvState :=
  ⟨some ⟨capacity, wl, 0⟩, [], users, 0⟩

/-- States reachable from a freshly created event by Register/Unregister
calls. -/
inductive Reachable : EvState → Prop where
  | init : ∀ c wl us, Reachable (initState c wl us)
  | step : ∀ s op, Reachable s → Reachable (step s op)

/-! ### Derived notions used by the invariants -/

/-- Number of registrations of the event whose status is confirmed — the
right-hand side of invariant I1 of the specification. -/
def countConfirmed (regs : List RegRec) : Nat :=
  (get_event_registrations "confirmed" regs).length

/-- Every user id in the list is strictly greater than the given one in the
sort-key order. -/
def allUserGt (u : String) : List RegRec → Bool
  | [] => true
  | x :: xs => strLt u x.userId && allUserGt u xs

/-- The registration items are strictly sorted by user id — exactly the shape
in which the keyed store holds the partition of one event. -/
def sortedRegs : List RegRec → Bool
  | [] => true
  | x :: xs => allUserGt x.userId xs && sortedRegs xs

/-- Inductive invariant of the engine: the stored items are strictly sorted
by key, every status is "confirmed" or "waitlisted", every waitlisted item
carries a positive position, and the event counter satisfies I1 and the
capacity bound. -/
def Inv (s : EvState) : Prop :=
  sortedRegs s.regs = true ∧
  (∀ r ∈ s.regs,
      r.registrationStatus = "confirmed" ∨ r.registrationStatus = "waitlisted") ∧
  (∀ r ∈ s.regs, r.registrationStatus = "waitlisted" →
      ∃ p, r.waitlistPosition = some p ∧ 0 < p) ∧
  (∀ ev, s.event = some ev →
      ev.registrationCount = countConfirmed s.regs ∧
      ev.registrationCount ≤ ev.eventCapacity)

/-- Modelled from the spec: the waitlist-position rule of §4.1 step 5, "one
greater than the current maximum waitlisted position for that event (or 1 if
the waitlist is empty)".  Used only to compare the specified rule with the
one the source implements. -/
def specNextPosition (regs : List RegRec) : Nat :=
  ((get_event_registrations "waitlisted" regs).map posKey).foldr max 0 + 1

/-! ### Concrete runs used as counterexamples and failing inputs

Starting from a fresh event of capacity 1 with the waitlist enabled:
register "a" fills the event, "b" and "c" join the waitlist at positions 1
and 2, then "b" leaves.  The one remaining waitlisted registration holds
position 2, so the waitlist is sparse. -/

/-- State after the run register a, register b, register c, unregister b on a
capacity-1 event with waitlist enabled. -/
def sparseState : EvState :=
  run (initState 1 true ["a", "b", "c", "d"])
    [Op.reg "a", Op.reg "b", Op.reg "c", Op.unreg "b"]

/-- Same kind of run, but the user names are chosen so that the fourth
waitlister ("a") sorts before the earlier one ("z") in the store's key
order: register m (confirmed), register q (waitlisted, position 1),
register z (waitlisted, position 2), unregister q, register a (waitlisted,
also position 2). -/
def tieState : EvState :=
  run (initState 1 true ["m", "q", "z", "a"])
    [Op.reg "m", Op.reg "q", Op.reg "z", Op.unreg "q", Op.reg "a"]

/-! ### Properties of the string order -/

theorem charLt_irrefl (a : Char) : charLt a a = false := by
  simp [charLt]

theorem charLt_trans {a b c : Char} (h1 : charLt a b = true)
    (h2 : charLt b c = true) : charLt a c = true := by
  simp only [charLt, decide_eq_true_eq] at *
  exact Nat.lt_trans h1 h2

theorem char_toNat_inj {a b : Char} (h : a.toNat = b.toNat) : a = b := by
  have ha := Char.ofNat_toNat a
  have hb := Char.ofNat_toNat b
  rw [← ha, ← hb, h]

theorem charLt_connex {a b : Char} (h1 : charLt a b = false)
    (h2 : charLt b a = false) : a = b := by
  simp only [charLt, decide_eq_false_iff_not, Nat.not_lt] at h1 h2
  exact char_toNat_inj (Nat.le_antisymm h2 h1)

theorem listCharLt_trans : ∀ {as bs cs : List Char},
    listCharLt as bs = true → listCharLt bs cs = true → listCharLt as cs = true
  | [], [], _, h1, _ => by simp [listCharLt] at h1
  | [], _ :: _, [], _, h2 => by simp [listCharLt] at h2
  | [], _ :: _, _ :: _, _, _ => by simp [listCharLt]
  | _ :: _, [], _, h1, _ => by simp [listCharLt] at h1
  | _ :: _, _ :: _, [], _, h2 => by simp [listCharLt] at h2
  | a :: as, b :: bs, c :: cs, h1, h2 => by
    simp only [listCharLt, Bool.or_eq_true, Bool.and_eq_true, beq_iff_eq] at *
    rcases h1 with h1 | ⟨hab, h1⟩
    · rcases h2 with h2 | ⟨hbc, h2⟩
      · exact Or.inl (charLt_trans h1 h2)
      · left
        simpa [charLt, hbc] using h1
    · rcases h2 with h2 | ⟨hbc, h2⟩
      · left
        simpa [charLt, hab] using h2
      · exact Or.inr ⟨hab.trans hbc, listCharLt_trans h1 h2⟩

theorem listCharLt_connex : ∀ {as bs : List Char},
    listCharLt as bs = false → listCharLt bs as = false → as = bs
  | [], [], _, _ => rfl
  | [], _ :: _, h1, _ => by simp [listCharLt] at h1
  | _ :: _, [], _, h2 => by simp [listCharLt] at h2
  | a :: as, b :: bs, h1, h2 => by
    simp only [listCharLt, Bool.or_eq_false_iff, Bool.and_eq_false_iff,
      beq_eq_false_iff_ne, ne_eq] at h1 h2
    have hab : a = b := charLt_connex h1.1 h2.1
    have htN : a.toNat = b.toNat := by rw [hab]
    have h1' : listCharLt as bs = false := by
      rcases h1.2 with h | h
      · exact absurd htN h
      · exact h
    have h2' : listCharLt bs as = false := by
      rcases h2.2 with h | h
      · exact absurd htN.symm h
      · exact h
    rw [hab, listCharLt_connex h1' h2']

theorem strLt_trans {a b c : String} (h1 : strLt a b = true)
    (h2 : strLt b c = true) : strLt a c = true :=
  listCharLt_trans h1 h2

theorem strLt_connex {a b : String} (h1 : strLt a b = false)
    (h2 : strLt b a = false) : a = b := by
  cases a with
  | mk da =>
    cases b with
    | mk db =>
      have : da = db := listCharLt_connex h1 h2
      rw [this]

theorem strLt_total_of_ne {a b : String} (hne : a ≠ b)
    (h1 : strLt a b = false) : strLt b a = true := by
  cases h : strLt b a
  · exact absurd (strLt_connex h1 h) hne
  · rfl

/-! ### Basic lemmas about the store operations -/

theorem allUserGt_mem {u : String} {l : List RegRec} {r : RegRec}
    (h : allUserGt u l = true) (hr : r ∈ l) : strLt u r.userId = true := by
  induction l with
  | nil => cases hr
  | cons x xs ih =>
    simp only [allUserGt, Bool.and_eq_true] at h
    rcases List.mem_cons.mp hr with rfl | hr
    · exact h.1
    · exact ih h.2 hr

theorem allUserGt_trans {u v : String} {l : List RegRec}
    (huv : strLt u v = true) (h : allUserGt v l = true) :
    allUserGt u l = true := by
  induction l with
  | nil => rfl
  | cons x xs ih =>
    simp only [allUserGt, Bool.and_eq_true] at h ⊢
    exact ⟨strLt_trans huv h.1, ih h.2⟩

theorem allUserGt_filter {u : String} {p : RegRec → Bool} {l : List RegRec}
    (h : allUserGt u l = true) : allUserGt u (l.filter p) = true := by
  induction l with
  | nil => rfl
  | cons x xs ih =>
    simp only [allUserGt, Bool.and_eq_true] at h
    by_cases hp : p x = true
    · simpa [List.filter_cons, hp, allUserGt, h.1] using ih h.2
    · simpa [List.filter_cons, hp] using ih h.2

theorem allUserGt_delete {u v : String} {l : List RegRec}
    (h : allUserGt u l = true) :
    allUserGt u (delete_registration v l) = true := by
  induction l with
  | nil => rfl
  | cons x xs ih =>
    simp only [allUserGt, Bool.and_eq_true] at h
    by_cases hx : x.userId = v
    · simpa [delete_registration, hx] using h.2
    · simpa [delete_registration, hx, allUserGt, h.1] using ih h.2

theorem allUserGt_update {u v status : String} {pos : Option Nat}
    {l : List RegRec} (h : allUserGt u l = true) :
    allUserGt u (update_registration_status v status pos l) = true := by
  induction l with
  | nil => rfl
  | cons x xs ih =>
    simp only [allUserGt, Bool.and_eq_true] at h
    rw [update_registration_status]
    by_cases hx : x.userId = v
    · rw [if_pos hx]
      simp only [allUserGt, Bool.and_eq_true]
      exact ⟨h.1, h.2⟩
    · rw [if_neg hx]
      simp only [allUserGt, Bool.and_eq_true]
      exact ⟨h.1, ih h.2⟩

theorem allUserGt_put {u : String} {r : RegRec} {l : List RegRec}
    (h : allUserGt u l = true) (hr : strLt u r.userId = true) :
    allUserGt u (put_registration r l) = true := by
  induction l with
  | nil => simpa [put_registration, allUserGt] using hr
  | cons x xs ih =>
    simp only [allUserGt, Bool.and_eq_true] at h
    rw [put_registration]
    by_cases h1 : strLt x.userId r.userId = true
    · rw [if_pos h1]
      simp only [allUserGt, Bool.and_eq_true]
      exact ⟨h.1, ih h.2⟩
    · rw [if_neg h1]
      by_cases h2 : x.userId = r.userId
      · rw [if_pos h2]
        simp only [allUserGt, Bool.and_eq_true]
        exact ⟨hr, h.2⟩
      · rw [if_neg h2]
        simp only [allUserGt, Bool.and_eq_true]
        exact ⟨hr, h.1, h.2⟩

theorem sortedRegs_cons {x : RegRec} {xs : List RegRec}
    (h : sortedRegs (x :: xs) = true) :
    allUserGt x.userId xs = true ∧ sortedRegs xs = true := by
  simpa [sortedRegs, Bool.and_eq_true] using h

theorem sortedRegs_filter {p : RegRec → Bool} {l : List RegRec}
    (h : sortedRegs l = true) : sortedRegs (l.filter p) = true := by
  induction l with
  | nil => rfl
  | cons x xs ih =>
    obtain ⟨h1, h2⟩ := sortedRegs_cons h
    by_cases hp : p x = true
    · simpa [List.filter_cons, hp, sortedRegs, allUserGt_filter h1] using ih h2
    · simpa [List.filter_cons, hp] using ih h2

theorem sortedRegs_delete {u : String} {l : List RegRec}
    (h : sortedRegs l = true) :
    sortedRegs (delete_registration u l) = true := by
  induction l with
  | nil => rfl
  | cons x xs ih =>
    obtain ⟨h1, h2⟩ := sortedRegs_cons h
    by_cases hx : x.userId = u
    · simpa [delete_registration, hx] using h2
    · simpa [delete_registration, hx, sortedRegs, allUserGt_delete h1]
        using ih h2

theorem sortedRegs_update {u status : String} {pos : Option Nat}
    {l : List RegRec} (h : sortedRegs l = true) :
    sortedRegs (update_registration_status u status pos l) = true := by
  induction l with
  | nil => rfl
  | cons x xs ih =>
    obtain ⟨h1, h2⟩ := sortedRegs_cons h
    rw [update_registration_status]
    by_cases hx : x.userId = u
    · rw [if_pos hx]
      simp only [sortedRegs, Bool.and_eq_true]
      exact ⟨h1, h2⟩
    · rw [if_neg hx]
      simp only [sortedRegs, Bool.and_eq_true]
      exact ⟨allUserGt_update h1, ih h2⟩

theorem sortedRegs_put {r : RegRec} {l : List RegRec}
    (h : sortedRegs l = true) : sortedRegs (put_registration r l) = true := by
  induction l with
  | nil => simp [put_registration, sortedRegs, allUserGt]
  | cons x xs ih =>
    obtain ⟨h1, h2⟩ := sortedRegs_cons h
    rw [put_registration]
    by_cases hlt : strLt x.userId r.userId = true
    · rw [if_pos hlt]
      simp only [sortedRegs, Bool.and_eq_true]
      exact ⟨allUserGt_put h1 hlt, ih h2⟩
    · rw [if_neg hlt]
      by_cases heq : x.userId = r.userId
      · rw [if_pos heq]
        simp only [sortedRegs, Bool.and_eq_true]
        refine ⟨?_, h2⟩
        rw [← heq]
        exact h1
      · rw [if_neg heq]
        have hlt' : strLt r.userId x.userId = true :=
          strLt_total_of_ne heq (by
            cases hx : strLt x.userId r.userId
            · rfl
            · exact absurd hx hlt)
        simp only [sortedRegs, allUserGt, Bool.and_eq_true]
        exact ⟨⟨hlt', allUserGt_trans hlt' h1⟩, h1, h2⟩

theorem mem_put {x r : RegRec} {l : List RegRec}
    (h : x ∈ put_registration r l) : x = r ∨ x ∈ l := by
  induction l with
  | nil =>
    rw [put_registration] at h
    exact Or.inl (List.mem_singleton.mp h)
  | cons y ys ih =>
    rw [put_registration] at h
    by_cases h1 : strLt y.userId r.userId = true
    · rw [if_pos h1] at h
      rcases List.mem_cons.mp h with rfl | h
      · exact Or.inr (List.mem_cons_self _ _)
      · rcases ih h with h | h
        · exact Or.inl h
        · exact Or.inr (List.mem_cons_of_mem _ h)
    · rw [if_neg h1] at h
      by_cases h2 : y.userId = r.userId
      · rw [if_pos h2] at h
        rcases List.mem_cons.mp h with rfl | h
        · exact Or.inl rfl
        · exact Or.inr (List.mem_cons_of_mem _ h)
      · rw [if_neg h2] at h
        rcases List.mem_cons.mp h with rfl | h
        · exact Or.inl rfl
        · exact Or.inr h

theorem mem_delete {x : RegRec} {u : String} {l : List RegRec}
    (h : x ∈ delete_registration u l) : x ∈ l := by
  induction l with
  | nil =>
    rw [delete_registration] at h
    cases h
  | cons y ys ih =>
    rw [delete_registration] at h
    by_cases hy : y.userId = u
    · rw [if_pos hy] at h
      exact List.mem_cons_of_mem _ h
    · rw [if_neg hy] at h
      rcases List.mem_cons.mp h with rfl | h
      · exact List.mem_cons_self _ _
      · exact List.mem_cons_of_mem _ (ih h)

theorem mem_update {x : RegRec} {u status : String} {pos : Option Nat}
    {l : List RegRec} (h : x ∈ update_registration_status u status pos l) :
    x ∈ l ∨ ∃ y, y ∈ l ∧ y.userId = u ∧
      x = { y with registrationStatus := status, waitlistPosition := pos } := by
  induction l with
  | nil =>
    rw [update_registration_status] at h
    cases h
  | cons y ys ih =>
    rw [update_registration_status] at h
    by_cases hy : y.userId = u
    · rw [if_pos hy] at h
      rcases List.mem_cons.mp h with rfl | h
      · exact Or.inr ⟨y, List.mem_cons_self _ _, hy, rfl⟩
      · exact Or.inl (List.mem_cons_of_mem _ h)
    · rw [if_neg hy] at h
      rcases List.mem_cons.mp h with rfl | h
      · exact Or.inl (List.mem_cons_self _ _)
      · rcases ih h with h | ⟨z, hz, hzu, hx⟩
        · exact Or.inl (List.mem_cons_of_mem _ h)
        · exact Or.inr ⟨z, List.mem_cons_of_mem _ hz, hzu, hx⟩

theorem mem_insertPosSorted {x r : RegRec} {l : List RegRec} :
    x ∈ insertPosSorted r l ↔ x = r ∨ x ∈ l := by
  induction l with
  | nil => simp [insertPosSorted]
  | cons y ys ih =>
    rw [insertPosSorted]
    by_cases h1 : posKey y < posKey r
    · rw [if_pos h1]
      simp only [List.mem_cons, ih]
      tauto
    · rw [if_neg h1]
      simp [List.mem_cons]

theorem mem_sortByPos {x : RegRec} {l : List RegRec} :
    x ∈ sortByPos l ↔ x ∈ l := by
  induction l with
  | nil => simp [sortByPos]
  | cons y ys ih =>
    rw [sortByPos, mem_insertPosSorted]
    simp only [List.mem_cons, ih]

theorem mem_get_event_registrations {x : RegRec} {st : String}
    {l : List RegRec} :
    x ∈ get_event_registrations st l ↔ x ∈ l ∧ x.registrationStatus = st := by
  simp [get_event_registrations, List.mem_filter]

theorem get_registration_mem {u : String} {l : List RegRec} {r : RegRec}
    (h : get_registration u l = some r) : r ∈ l ∧ r.userId = u := by
  induction l with
  | nil => simp [get_registration] at h
  | cons y ys ih =>
    rw [get_registration] at h
    by_cases hy : y.userId = u
    · rw [if_pos hy] at h
      cases h
      exact ⟨List.mem_cons_self _ _, hy⟩
    · rw [if_neg hy] at h
      obtain ⟨hm, hu⟩ := ih h
      exact ⟨List.mem_cons_of_mem _ hm, hu⟩

theorem get_registration_of_mem {l : List RegRec} {r : RegRec}
    (hs : sortedRegs l = true) (hr : r ∈ l) :
    get_registration r.userId l = some r := by
  induction l with
  | nil => cases hr
  | cons y ys ih =>
    obtain ⟨h1, h2⟩ := sortedRegs_cons hs
    rw [get_registration]
    rcases List.mem_cons.mp hr with rfl | hr
    · rw [if_pos rfl]
    · by_cases hy : y.userId = r.userId
      · exfalso
        have := allUserGt_mem h1 hr
        rw [hy] at this
        rw [strLt] at this
        have hirr : listCharLt r.userId.data r.userId.data = false := by
          clear this
          induction r.userId.data with
          | nil => rfl
          | cons c cs ihc =>
            simp [listCharLt, charLt_irrefl, ihc]
        rw [hirr] at this
        cases this
      · rw [if_neg hy]
        exact ih h2 hr

theorem get_registration_none {u : String} {l : List RegRec}
    (h : get_registration u l = none) {r : RegRec} (hr : r ∈ l) :
    r.userId ≠ u := by
  induction l with
  | nil => cases hr
  | cons y ys ih =>
    rw [get_registration] at h
    by_cases hy : y.userId = u
    · rw [if_pos hy] at h
      cases h
    · rw [if_neg hy] at h
      rcases List.mem_cons.mp hr with rfl | hr
      · exact hy
      · exact ih h hr

theorem delete_registration_of_none {u : String} {l : List RegRec}
    (h : get_registration u l = none) : delete_registration u l = l := by
  induction l with
  | nil => rfl
  | cons y ys ih =>
    rw [get_registration] at h
    rw [delete_registration]
    by_cases hy : y.userId = u
    · rw [if_pos hy] at h
      cases h
    · rw [if_neg hy] at h
      rw [if_neg hy, ih h]

/-! ### Counting lemmas -/

theorem countConfirmed_cons (x : RegRec) (xs : List RegRec) :
    countConfirmed (x :: xs) =
      (if x.registrationStatus = "confirmed" then 1 else 0) +
        countConfirmed xs := by
  by_cases hx : x.registrationStatus = "confirmed"
  · simp [countConfirmed, get_event_registrations, List.filter_cons, hx]
    omega
  · simp [countConfirmed, get_event_registrations, List.filter_cons, hx]

theorem countConfirmed_put_confirmed {r : RegRec} {l : List RegRec}
    (hnone : get_registration r.userId l = none)
    (hc : r.registrationStatus = "confirmed") :
    countConfirmed (put_registration r l) = countConfirmed l + 1 := by
  induction l with
  | nil => simp [put_registration, countConfirmed_cons, hc, countConfirmed,
      get_event_registrations]
  | cons y ys ih =>
    rw [get_registration] at hnone
    by_cases hy : y.userId = r.userId
    · rw [if_pos hy] at hnone
      cases hnone
    · rw [if_neg hy] at hnone
      rw [put_registration]
      by_cases h1 : strLt y.userId r.userId = true
      · rw [if_pos h1, countConfirmed_cons, countConfirmed_cons, ih hnone]
        omega
      · rw [if_neg h1, if_neg (fun hh => hy hh), countConfirmed_cons,
          countConfirmed_cons, if_pos hc]
        omega

theorem countConfirmed_put_waitlisted {r : RegRec} {l : List RegRec}
    (hnone : get_registration r.userId l = none)
    (hc : ¬ r.registrationStatus = "confirmed") :
    countConfirmed (put_registration r l) = countConfirmed l := by
  induction l with
  | nil => simp [put_registration, countConfirmed_cons, hc, countConfirmed,
      get_event_registrations]
  | cons y ys ih =>
    rw [get_registration] at hnone
    by_cases hy : y.userId = r.userId
    · rw [if_pos hy] at hnone
      cases hnone
    · rw [if_neg hy] at hnone
      rw [put_registration]
      by_cases h1 : strLt y.userId r.userId = true
      · rw [if_pos h1, countConfirmed_cons, countConfirmed_cons, ih hnone]
      · rw [if_neg h1, if_neg (fun hh => hy hh), countConfirmed_cons,
          countConfirmed_cons, if_neg hc]
        omega

theorem countConfirmed_delete_confirmed {u : String} {l : List RegRec}
    {r : RegRec} (h : get_registration u l = some r)
    (hc : r.registrationStatus = "confirmed") :
    countConfirmed (delete_registration u l) + 1 = countConfirmed l := by
  induction l with
  | nil => simp [get_registration] at h
  | cons y ys ih =>
    rw [get_registration] at h
    rw [delete_registration]
    by_cases hy : y.userId = u
    · rw [if_pos hy] at h
      cases h
      rw [if_pos hy, countConfirmed_cons, if_pos hc]
      omega
    · rw [if_neg hy] at h
      rw [if_neg hy, countConfirmed_cons, countConfirmed_cons]
      have := ih h
      omega

theorem countConfirmed_delete_waitlisted {u : String} {l : List RegRec}
    {r : RegRec} (h : get_registration u l = some r)
    (hc : ¬ r.registrationStatus = "confirmed") :
    countConfirmed (delete_registration u l) = countConfirmed l := by
  induction l with
  | nil => simp [get_registration] at h
  | cons y ys ih =>
    rw [get_registration] at h
    rw [delete_registration]
    by_cases hy : y.userId = u
    · rw [if_pos hy] at h
      cases h
      rw [if_pos hy, countConfirmed_cons, if_neg hc]
      omega
    · rw [if_neg hy] at h
      rw [if_neg hy, countConfirmed_cons, countConfirmed_cons, ih h]

theorem countConfirmed_update_promote {u : String} {l : List RegRec}
    {r : RegRec} (h : get_registration u l = some r)
    (hc : ¬ r.registrationStatus = "confirmed") :
    countConfirmed (update_registration_status u "confirmed" none l) =
      countConfirmed l + 1 := by
  induction l with
  | nil => simp [get_registration] at h
  | cons y ys ih =>
    rw [get_registration] at h
    rw [update_registration_status]
    by_cases hy : y.userId = u
    · rw [if_pos hy] at h
      cases h
      rw [if_pos hy, countConfirmed_cons, countConfirmed_cons, if_neg hc]
      simp only [if_pos]
      omega
    · rw [if_neg hy] at h
      rw [if_neg hy, countConfirmed_cons, countConfirmed_cons, ih h]
      omega

theorem filter_delete_other {u status : String} {l : List RegRec}
    {r : RegRec} (h : get_registration u l = some r)
    (hns : ¬ r.registrationStatus = status) :
    get_event_registrations status (delete_registration u l) =
      get_event_registrations status l := by
  induction l with
  | nil => simp [get_registration] at h
  | cons y ys ih =>
    rw [get_registration] at h
    rw [delete_registration]
    by_cases hy : y.userId = u
    · rw [if_pos hy] at h
      cases h
      rw [if_pos hy]
      simp [get_event_registrations, List.filter_cons, hns]
    · rw [if_neg hy] at h
      rw [if_neg hy]
      have hih := ih h
      simp only [get_event_registrations] at hih ⊢
      simp only [List.filter_cons, hih]

/-! ### Head of the stable waitlist sort -/

theorem insertPosSorted_ne_nil (r : RegRec) (l : List RegRec) :
    insertPosSorted r l ≠ [] := by
  cases l with
  | nil => simp [insertPosSorted]
  | cons x xs =>
    rw [insertPosSorted]
    by_cases h : posKey x < posKey r
    · rw [if_pos h]
      simp
    · rw [if_neg h]
      simp

theorem sortByPos_eq_nil {l : List RegRec} (h : sortByPos l = []) : l = [] := by
  cases l with
  | nil => rfl
  | cons x xs => exact absurd h (insertPosSorted_ne_nil x (sortByPos xs))

theorem sortByPos_head : ∀ {l : List RegRec} {h : RegRec} {t : List RegRec},
    sortByPos l = h :: t →
    ∃ l1 l2, l = l1 ++ h :: l2 ∧ (∀ x ∈ l1, posKey h < posKey x) ∧
      (∀ x ∈ l2, posKey h ≤ posKey x)
  | [], h, t, heq => by cases heq
  | x :: xs, h, t, heq => by
    rw [sortByPos] at heq
    cases hxs : sortByPos xs with
    | nil =>
      have hx : xs = [] := sortByPos_eq_nil hxs
      rw [hxs] at heq
      rw [insertPosSorted] at heq
      cases heq
      refine ⟨[], [], ?_, ?_, ?_⟩
      · simp [hx]
      · intro y hy
        cases hy
      · intro y hy
        cases hy
    | cons h0 t0 =>
      rw [hxs, insertPosSorted] at heq
      by_cases hcmp : posKey h0 < posKey x
      · rw [if_pos hcmp] at heq
        obtain ⟨rfl, rfl⟩ : h0 = h ∧ insertPosSorted x t0 = t := by
          cases heq
          exact ⟨rfl, rfl⟩
        obtain ⟨l1, l2, hdec, hl1, hl2⟩ := sortByPos_head hxs
        refine ⟨x :: l1, l2, by rw [hdec]; rfl, ?_, hl2⟩
        intro y hy
        rcases List.mem_cons.mp hy with rfl | hy
        · exact hcmp
        · exact hl1 y hy
      · rw [if_neg hcmp] at heq
        obtain ⟨rfl, rfl⟩ : x = h ∧ h0 :: t0 = t := by
          cases heq
          exact ⟨rfl, rfl⟩
        obtain ⟨l1, l2, hdec, hl1, hl2⟩ := sortByPos_head hxs
        refine ⟨[], xs, rfl, ?_, ?_⟩
        · intro y hy
          cases hy
        intro y hy
        have hle : posKey x ≤ posKey h0 := Nat.le_of_not_lt hcmp
        rw [hdec] at hy
        rcases List.mem_append.mp hy with hy | hy
        · exact Nat.le_of_lt (Nat.lt_of_le_of_lt hle (hl1 y hy))
        · rcases List.mem_cons.mp hy with rfl | hy
          · exact hle
          · exact Nat.le_trans hle (hl2 y hy)

theorem get_waitlisted_eq_nil {l : List RegRec}
    (h : ∀ r ∈ l, ¬ r.registrationStatus = "waitlisted") :
    get_waitlisted_registrations l = [] := by
  have hf : get_event_registrations "waitlisted" l = [] := by
    simp only [get_event_registrations]
    rw [List.filter_eq_nil_iff]
    intro a ha
    simpa using h a ha
  rw [get_waitlisted_registrations, hf]
  rfl

theorem get_waitlisted_nil_no_waitlisted {l : List RegRec}
    (h : get_waitlisted_registrations l = []) :
    ∀ r ∈ l, ¬ r.registrationStatus = "waitlisted" := by
  rw [get_waitlisted_registrations] at h
  have hf := sortByPos_eq_nil h
  intro r hr hw
  have : r ∈ get_event_registrations "waitlisted" l :=
    mem_get_event_registrations.mpr ⟨hr, hw⟩
  rw [hf] at this
  cases this

/-- The first element returned by `get_waitlisted_registrations` is a
waitlisted registration of the event whose sort key `posKey` is minimal among
all waitlisted registrations. -/
theorem waitlist_head_spec {regs : List RegRec} {first : RegRec}
    {rest : List RegRec}
    (h : get_waitlisted_registrations regs = first :: rest) :
    first ∈ regs ∧ first.registrationStatus = "waitlisted" ∧
      ∀ r ∈ regs, r.registrationStatus = "waitlisted" →
        posKey first ≤ posKey r := by
  rw [get_waitlisted_registrations] at h
  obtain ⟨l1, l2, hdec, hl1, hl2⟩ := sortByPos_head h
  have hfmem : first ∈ get_event_registrations "waitlisted" regs := by
    rw [hdec]
    exact List.mem_append.mpr (Or.inr (List.mem_cons_self _ _))
  obtain ⟨hm, hw⟩ := mem_get_event_registrations.mp hfmem
  refine ⟨hm, hw, ?_⟩
  intro r hr hrw
  have hrf : r ∈ get_event_registrations "waitlisted" regs :=
    mem_get_event_registrations.mpr ⟨hr, hrw⟩
  rw [hdec] at hrf
  rcases List.mem_append.mp hrf with hy | hy
  · exact Nat.le_of_lt (hl1 r hy)
  · rcases List.mem_cons.mp hy with rfl | hy
    · exact Nat.le_refl _
    · exact hl2 r hy

theorem sortedRegs_append_mid : ∀ {l1 : List RegRec} {x : RegRec}
    {l2 : List RegRec}, sortedRegs (l1 ++ x :: l2) = true →
    ∀ y ∈ l2, strLt x.userId y.userId = true
  | [], x, l2, h, y, hy => by
    obtain ⟨h1, _⟩ := sortedRegs_cons h
    exact allUserGt_mem h1 hy
  | a :: l1, x, l2, h, y, hy => by
    obtain ⟨_, h2⟩ := sortedRegs_cons h
    exact sortedRegs_append_mid h2 y hy

/-- Among waitlisted registrations tied with the head on `posKey`, the head
is the one with the smallest user id: the query feeding the sort returns
items in sort-key (user id) order and Python's sort is stable. -/
theorem waitlist_head_tie {regs : List RegRec} {first : RegRec}
    {rest : List RegRec} (hs : sortedRegs regs = true)
    (h : get_waitlisted_registrations regs = first :: rest) :
    ∀ r ∈ regs, r.registrationStatus = "waitlisted" →
      posKey r = posKey first →
      r = first ∨ strLt first.userId r.userId = true := by
  rw [get_waitlisted_registrations] at h
  obtain ⟨l1, l2, hdec, hl1, hl2⟩ := sortByPos_head h
  intro r hr hrw hkey
  have hrf : r ∈ get_event_registrations "waitlisted" regs :=
    mem_get_event_registrations.mpr ⟨hr, hrw⟩
  rw [hdec] at hrf
  have hsf : sortedRegs (get_event_registrations "waitlisted" regs) = true :=
    sortedRegs_filter hs
  rw [hdec] at hsf
  rcases List.mem_append.mp hrf with hy | hy
  · exact absurd hkey (Nat.ne_of_gt (hl1 r hy))
  · rcases List.mem_cons.mp hy with rfl | hy
    · exact Or.inl rfl
    · exact Or.inr (sortedRegs_append_mid hsf r hy)

/-! ### Preservation of the invariant -/

theorem inv_register_ok {s : EvState} {u : String} {r : RegRec} {s' : EvState}
    (hinv : Inv s) (h : register s u = Except.ok (r, s')) : Inv s' := by
  obtain ⟨hsort, hstat, hpos, hev⟩ := hinv
  rw [register] at h
  split at h
  · cases h
  · rename_i ev hevs
    split at h
    · split at h
      · cases h
      · rename_i hregs
        simp only at h
        split at h
        · rename_i hcap
          cases h
          refine ⟨sortedRegs_put hsort, ?_, ?_, ?_⟩
          · intro x hx
            rcases mem_put hx with rfl | hx
            · exact Or.inl rfl
            · exact hstat x hx
          · intro x hx hw
            rcases mem_put hx with rfl | hx
            · simp at hw
            · exact hpos x hx hw
          · intro ev' hev'
            simp only [Option.some.injEq] at hev'
            obtain ⟨hc, hcap2⟩ := hev ev hevs
            subst hev'
            constructor
            · simp only
              rw [countConfirmed_put_confirmed hregs rfl, ← hc]
            · simp only
              omega
        · split at h
          · cases h
            refine ⟨sortedRegs_put hsort, ?_, ?_, ?_⟩
            · intro x hx
              rcases mem_put hx with rfl | hx
              · exact Or.inr rfl
              · exact hstat x hx
            · intro x hx hw
              rcases mem_put hx with rfl | hx
              · exact ⟨_, rfl, Nat.succ_pos _⟩
              · exact hpos x hx hw
            · intro ev' hev'
              simp only at hev'
              rw [hevs] at hev'
              simp only [Option.some.injEq] at hev'
              subst hev'
              obtain ⟨hc, hcap2⟩ := hev ev hevs
              refine ⟨?_, hcap2⟩
              rw [countConfirmed_put_waitlisted hregs (by intro hh; simp at hh), ← hc]
          · cases h
    · cases h

theorem inv_unregister_ok {s : EvState} {u : String} {s' : EvState}
    (hinv : Inv s) (h : unregister s u = Except.ok s') : Inv s' := by
  obtain ⟨hsort, hstat, hpos, hev⟩ := hinv
  rw [unregister] at h
  split at h
  · cases h
  · rename_i reg hregs
    simp only at h
    have hsortd : sortedRegs (delete_registration u s.regs) = true :=
      sortedRegs_delete hsort
    split at h
    · rename_i hconf
      split at h
      · rename_i hevs
        cases h
        refine ⟨hsortd, ?_, ?_, ?_⟩
        · intro x hx
          exact hstat x (mem_delete hx)
        · intro x hx
          exact hpos x (mem_delete hx)
        · intro ev' hev'
          simp only at hev' hevs
          rw [hevs] at hev'
          cases hev'
      · rename_i ev hevs
        split at h
        · rename_i hwnil
          cases h
          refine ⟨hsortd, ?_, ?_, ?_⟩
          · intro x hx
            exact hstat x (mem_delete hx)
          · intro x hx
            exact hpos x (mem_delete hx)
          · intro ev' hev'
            simp only [Option.some.injEq] at hev'
            subst hev'
            obtain ⟨hc, hcap2⟩ := hev ev hevs
            have hdel := countConfirmed_delete_confirmed hregs hconf
            constructor
            · simp only
              omega
            · simp only
              omega
        · rename_i first rest hw
          cases h
          obtain ⟨hfm, hfw, _⟩ := waitlist_head_spec hw
          have hfget : get_registration first.userId
              (delete_registration u s.regs) = some first :=
            get_registration_of_mem hsortd hfm
          refine ⟨sortedRegs_update hsortd, ?_, ?_, ?_⟩
          · intro x hx
            rcases mem_update hx with hx | ⟨y, hy, hyu, rfl⟩
            · exact hstat x (mem_delete hx)
            · exact Or.inl rfl
          · intro x hx hwx
            rcases mem_update hx with hx | ⟨y, hy, hyu, rfl⟩
            · exact hpos x (mem_delete hx) hwx
            · simp at hwx
          · intro ev' hev'
            simp only at hev'
            rw [hevs] at hev'
            simp only [Option.some.injEq] at hev'
            subst hev'
            obtain ⟨hc, hcap2⟩ := hev ev hevs
            have hdel := countConfirmed_delete_confirmed hregs hconf
            have hupd := countConfirmed_update_promote hfget
              (by rw [hfw]; decide)
            constructor
            · rw [hupd]
              omega
            · exact hcap2
    · rename_i hconf
      cases h
      refine ⟨hsortd, ?_, ?_, ?_⟩
      · intro x hx
        exact hstat x (mem_delete hx)
      · intro x hx
        exact hpos x (mem_delete hx)
      · intro ev' hev'
        simp only at hev'
        obtain ⟨hc, hcap2⟩ := hev ev' hev'
        have hdel := countConfirmed_delete_waitlisted hregs hconf
        exact ⟨by rw [hdel, ← hc], hcap2⟩

theorem inv_step {s : EvState} (op : Op) (hinv : Inv s) :
    Inv (step s op) := by
  cases op with
  | reg u =>
    rw [step]
    cases h : register s u with
    | ok p =>
      obtain ⟨r, s2⟩ := p
      exact inv_register_ok hinv h
    | error e => exact hinv
  | unreg u =>
    rw [step]
    cases h : unregister s u with
    | ok s2 => exact inv_unregister_ok hinv h
    | error e => exact hinv

theorem reachable_inv {s : EvState} (h : Reachable s) : Inv s := by
  induction h with
  | init c wl us =>
    refine ⟨rfl, ?_, ?_, ?_⟩
    · intro r hr
      cases hr
    · intro r hr
      cases hr
    · intro ev hev
      simp only [initState, Option.some.injEq] at hev
      subst hev
      exact ⟨rfl, Nat.zero_le _⟩
  | step s op hr ih => exact inv_step op ih

/-! ### Further helper lemmas for the promotion claims -/

theorem posKey_eq {r : RegRec} {p : Nat} (h : r.waitlistPosition = some p)
    (hp : 0 < p) : posKey r = p := by
  rw [posKey, h]
  cases p with
  | zero => exact absurd hp (Nat.lt_irrefl 0)
  | succ n => rfl

theorem mem_delete_of_ne {r : RegRec} {u : String} {l : List RegRec}
    (hr : r ∈ l) (hne : ¬ r.userId = u) : r ∈ delete_registration u l := by
  induction l with
  | nil => cases hr
  | cons x xs ih =>
    rw [delete_registration]
    by_cases hx : x.userId = u
    · rw [if_pos hx]
      rcases List.mem_cons.mp hr with rfl | hr
      · exact absurd hx hne
      · exact hr
    · rw [if_neg hx]
      rcases List.mem_cons.mp hr with rfl | hr
      · exact List.mem_cons_self _ _
      · exact List.mem_cons_of_mem _ (ih hr)

theorem mem_update_of_ne {r : RegRec} {v status : String} {pos : Option Nat}
    {l : List RegRec} (hr : r ∈ l) (hne : ¬ r.userId = v) :
    r ∈ update_registration_status v status pos l := by
  induction l with
  | nil => cases hr
  | cons x xs ih =>
    rw [update_registration_status]
    by_cases hx : x.userId = v
    · rw [if_pos hx]
      rcases List.mem_cons.mp hr with rfl | hr
      · exact absurd hx hne
      · exact List.mem_cons_of_mem _ hr
    · rw [if_neg hx]
      rcases List.mem_cons.mp hr with rfl | hr
      · exact List.mem_cons_self _ _
      · exact List.mem_cons_of_mem _ (ih hr)

theorem get_update_self {v status : String} {pos : Option Nat}
    {l : List RegRec} {y : RegRec} (h : get_registration v l = some y) :
    get_registration v (update_registration_status v status pos l) =
      some ({ y with registrationStatus := status,
                     waitlistPosition := pos }) := by
  induction l with
  | nil => cases h
  | cons x xs ih =>
    rw [get_registration] at h
    rw [update_registration_status]
    by_cases hx : x.userId = v
    · rw [if_pos hx] at h
      cases h
      rw [if_pos hx, get_registration, if_pos hx]
    · rw [if_neg hx] at h
      rw [if_neg hx, get_registration, if_neg hx]
      exact ih h

theorem countConfirmed_pos {l : List RegRec} {r : RegRec} (hr : r ∈ l)
    (hc : r.registrationStatus = "confirmed") : 1 ≤ countConfirmed l := by
  have hm : r ∈ get_event_registrations "confirmed" l :=
    mem_get_event_registrations.mpr ⟨hr, hc⟩
  rw [countConfirmed]
  exact List.length_pos.mpr (List.ne_nil_of_mem hm)

theorem get_waitlisted_delete_confirmed {u : String} {l : List RegRec}
    {reg : RegRec} (h : get_registration u l = some reg)
    (hconf : reg.registrationStatus = "confirmed") :
    get_waitlisted_registrations (delete_registration u l) =
      get_waitlisted_registrations l := by
  rw [get_waitlisted_registrations, get_waitlisted_registrations,
    filter_delete_other h (by rw [hconf]; decide)]

/-! ### Claims -/

/-- C1: for every sequence of Register/Unregister calls on one event (each
completing before the next begins), after every call the event's stored
confirmed count (`registrationCount`) equals the number of registrations for
that event with status confirmed, and that count never exceeds the event's
capacity. -/
theorem C1_confirmedCount_invariant {s : EvState} (hreach : Reachable s)
    {ev : EventRec} (hev : s.event = some ev) :
    ev.registrationCount = countConfirmed s.regs ∧
      ev.registrationCount ≤ ev.eventCapacity :=
  (reachable_inv hreach).2.2.2 ev hev

theorem C1_confirmedCount_invariant_witness :
    (EventRec.mk 2 true 2).registrationCount =
        countConfirmed (run (initState 2 true ["a", "b", "c"])
          [Op.reg "a", Op.reg "b", Op.reg "c"]).regs ∧
      (EventRec.mk 2 true 2).registrationCount ≤
        (EventRec.mk 2 true 2).eventCapacity :=
  C1_confirmedCount_invariant
    (Reachable.step _ _ (Reachable.step _ _ (Reachable.step _ _
      (Reachable.init 2 true ["a", "b", "c"])))) (by decide)

/-- C6: unregistering a user whose registration is confirmed, on an existing
event with no waitlisted registrations, decrements the stored confirmed count
by exactly one and never drives it below zero (the count is at least 1
beforehand, so the truncated subtraction is an exact decrement). -/
theorem C6_decrement_on_empty_waitlist {s : EvState} (hreach : Reachable s)
    {u : String} {reg : RegRec} {ev : EventRec}
    (hreg : get_registration u s.regs = some reg)
    (hconf : reg.registrationStatus = "confirmed")
    (hev : s.event = some ev)
    (hnowl : ∀ r ∈ s.regs, ¬ r.registrationStatus = "waitlisted") :
    1 ≤ ev.registrationCount ∧
      unregister s u = Except.ok { s with
        regs := delete_registration u s.regs,
        event := some ({ ev with
          registrationCount := ev.registrationCount - 1 }) } := by
  have hinv := reachable_inv hreach
  have hc1 : ev.registrationCount = countConfirmed s.regs :=
    (hinv.2.2.2 ev hev).1
  have hmem := (get_registration_mem hreg).1
  have hpos : 1 ≤ ev.registrationCount := by
    rw [hc1]
    exact countConfirmed_pos hmem hconf
  refine ⟨hpos, ?_⟩
  rw [unregister, hreg]
  simp only
  rw [if_pos hconf]
  have hwl : get_waitlisted_registrations
      (delete_registration u s.regs) = [] :=
    get_waitlisted_eq_nil (fun r hr => hnowl r (mem_delete hr))
  rw [hev, hwl]

theorem C6_decrement_on_empty_waitlist_witness :
    1 ≤ (EventRec.mk 1 true 1).registrationCount ∧
      unregister (run (initState 1 true ["a"]) [Op.reg "a"]) "a" =
        Except.ok { run (initState 1 true ["a"]) [Op.reg "a"] with
          regs := delete_registration "a"
            (run (initState 1 true ["a"]) [Op.reg "a"]).regs,
          event := some ({ EventRec.mk 1 true 1 with
            registrationCount := (EventRec.mk 1 true 1).registrationCount - 1 }) } :=
  @C6_decrement_on_empty_waitlist (run (initState 1 true ["a"]) [Op.reg "a"])
    (Reachable.step (initState 1 true ["a"]) (Op.reg "a")
      (Reachable.init 1 true ["a"]))
    "a" (RegRec.mk "a" "confirmed" 0 none) (EventRec.mk 1 true 1)
    (by decide) (by decide) (by decide) (by decide)

/-- C7: a Register call on an existing event whose waitlist is disabled and
whose confirmed count has reached its capacity, made by an existing user with
no prior registration, fails with the Full error and leaves the state
untouched (no record created, event unchanged). -/
theorem C7_full_rejection {s : EvState} {u : String} {ev : EventRec}
    (hev : s.event = some ev) (hwl : ev.waitlistEnabled = false)
    (hcap : ev.registrationCount = ev.eventCapacity)
    (huser : s.users.contains u = true)
    (hreg : get_registration u s.regs = none) :
    register s u = Except.error SvcError.eventFull ∧
      step s (Op.reg u) = s := by
  have hr : register s u = Except.error SvcError.eventFull := by
    rw [register, hev]
    simp only [if_pos huser]
    rw [hreg]
    simp only
    rw [if_neg (by omega : ¬ ev.registrationCount < ev.eventCapacity)]
    rw [hwl]
    simp
  refine ⟨hr, ?_⟩
  simp only [step, hr]

theorem C7_full_rejection_witness :
    register (run (initState 1 false ["a", "b"]) [Op.reg "a"]) "b" =
        Except.error SvcError.eventFull ∧
      step (run (initState 1 false ["a", "b"]) [Op.reg "a"]) (Op.reg "b") =
        run (initState 1 false ["a", "b"]) [Op.reg "a"] :=
  @C7_full_rejection (run (initState 1 false ["a", "b"]) [Op.reg "a"]) "b"
    (EventRec.mk 1 false 1) (by decide) (by decide) (by decide) (by decide)
    (by decide)

/-- C8: a Register call for a pair (event, user) that already has a
registration — whatever its status — fails with the Conflict error and
leaves the state untouched: no second record, no overwrite, confirmed count
unchanged. -/
theorem C8_duplicate_rejection {s : EvState} {u : String} {ev : EventRec}
    {r : RegRec} (hev : s.event = some ev)
    (huser : s.users.contains u = true)
    (hreg : get_registration u s.regs = some r) :
    register s u = Except.error SvcError.alreadyRegistered ∧
      step s (Op.reg u) = s := by
  have hr : register s u = Except.error SvcError.alreadyRegistered := by
    rw [register, hev]
    simp only [if_pos huser]
    rw [hreg]
  refine ⟨hr, ?_⟩
  simp only [step, hr]

theorem C8_duplicate_rejection_witness :
    register (run (initState 2 true ["a"]) [Op.reg "a"]) "a" =
        Except.error SvcError.alreadyRegistered ∧
      step (run (initState 2 true ["a"]) [Op.reg "a"]) (Op.reg "a") =
        run (initState 2 true ["a"]) [Op.reg "a"] :=
  @C8_duplicate_rejection (run (initState 2 true ["a"]) [Op.reg "a"]) "a"
    (EventRec.mk 2 true 1) (RegRec.mk "a" "confirmed" 0 none) (by decide)
    (by decide) (by decide)

/-- C10: Unregister fails — always with the NotRegistered error — exactly
when no registration exists for the pair; and when a registration exists but
the event record is absent, the call still succeeds, deletes the
registration, and performs no promotion and no count change (the resulting
state differs only by the deleted item). -/
theorem C10_unregister_notRegistered_iff (s : EvState) (u : String) :
    (unregister s u = Except.error SvcError.notRegistered ↔
        get_registration u s.regs = none) ∧
      (s.event = none → ∀ r, get_registration u s.regs = some r →
        unregister s u =
          Except.ok { s with regs := delete_registration u s.regs }) := by
  constructor
  · constructor
    · intro h
      cases hreg : get_registration u s.regs with
      | none => rfl
      | some reg =>
        exfalso
        rw [unregister, hreg] at h
        simp only at h
        by_cases hconf : reg.registrationStatus = "confirmed"
        · rw [if_pos hconf] at h
          cases hevs : s.event with
          | none =>
            rw [hevs] at h
            cases h
          | some ev =>
            rw [hevs] at h
            cases hw : get_waitlisted_registrations
                (delete_registration u s.regs) with
            | nil =>
              rw [hw] at h
              cases h
            | cons first rest =>
              rw [hw] at h
              cases h
        · rw [if_neg hconf] at h
          cases h
    · intro h
      rw [unregister, h]
  · intro hev r hreg
    rw [unregister, hreg]
    simp only
    by_cases hconf : r.registrationStatus = "confirmed"
    · rw [if_pos hconf, hev]
    · rw [if_neg hconf]

theorem C10_unregister_notRegistered_iff_witness :
    (unregister (EvState.mk none [RegRec.mk "a" "confirmed" 0 none] ["a"] 1)
          "a" = Except.error SvcError.notRegistered ↔
        get_registration "a"
          (EvState.mk none [RegRec.mk "a" "confirmed" 0 none] ["a"] 1).regs =
          none) ∧
      ((EvState.mk none [RegRec.mk "a" "confirmed" 0 none] ["a"] 1).event =
          none →
        ∀ r, get_registration "a"
            (EvState.mk none [RegRec.mk "a" "confirmed" 0 none] ["a"] 1).regs =
            some r →
          unregister (EvState.mk none [RegRec.mk "a" "confirmed" 0 none]
              ["a"] 1) "a" =
            Except.ok { EvState.mk none [RegRec.mk "a" "confirmed" 0 none]
                ["a"] 1 with
              regs := delete_registration "a"
                (EvState.mk none [RegRec.mk "a" "confirmed" 0 none]
                  ["a"] 1).regs }) :=
  C10_unregister_notRegistered_iff
    (EvState.mk none [RegRec.mk "a" "confirmed" 0 none] ["a"] 1) "a"

/-- C2 as stated fails on the code: in the sparse reachable state (one
waitlisted registration left, holding position 2) the Register call for "d"
creates a waitlisted registration with position 2 — one greater than the
NUMBER of waitlisted registrations — whereas the claimed rule "one greater
than the current maximum waitlisted position" demands 3; the confirmed count
is unchanged either way. -/
theorem C2_counterexample :
    sparseState.event = some (EventRec.mk 1 true 1) ∧
      get_event_registrations "waitlisted" sparseState.regs =
        [RegRec.mk "c" "waitlisted" 2 (some 2)] ∧
      (register sparseState "d").toOption.map
          (fun p => (p.1.registrationStatus, p.1.waitlistPosition)) =
        some ("waitlisted", some 2) ∧
      specNextPosition sparseState.regs = 3 ∧
      (register sparseState "d").toOption.map
          (fun p => p.1.waitlistPosition) ≠
        some (some (specNextPosition sparseState.regs)) :=
  ⟨by decide, by decide, by decide, by decide, by decide⟩

/-- C2 amended: a Register call on an existing event at (or over) capacity
with the waitlist enabled, by an existing not-yet-registered user, creates a
waitlisted registration whose position is one greater than the NUMBER of the
event's currently waitlisted registrations (1 if the waitlist is empty) —
not one greater than their maximum position — and the event item, hence its
confirmed count, is unchanged. -/
theorem C2_amended_waitlist_position {s : EvState} {u : String}
    {ev : EventRec} (hev : s.event = some ev)
    (huser : s.users.contains u = true)
    (hreg : get_registration u s.regs = none)
    (hcap : ¬ ev.registrationCount < ev.eventCapacity)
    (hwl : ev.waitlistEnabled = true) :
    register s u = Except.ok
      (RegRec.mk u "waitlisted" s.clock
          (some ((get_waitlisted_registrations s.regs).length + 1)),
        { s with
          regs := put_registration
            (RegRec.mk u "waitlisted" s.clock
              (some ((get_waitlisted_registrations s.regs).length + 1)))
            s.regs,
          clock := s.clock + 1 }) := by
  rw [register, hev]
  simp only [if_pos huser]
  rw [hreg]
  simp only
  rw [if_neg hcap, hwl]
  simp

theorem C2_amended_waitlist_position_witness :
    register sparseState "d" = Except.ok
      (RegRec.mk "d" "waitlisted" sparseState.clock
          (some ((get_waitlisted_registrations sparseState.regs).length + 1)),
        { sparseState with
          regs := put_registration
            (RegRec.mk "d" "waitlisted" sparseState.clock
              (some ((get_waitlisted_registrations sparseState.regs).length
                + 1)))
            sparseState.regs,
          clock := sparseState.clock + 1 }) :=
  @C2_amended_waitlist_position sparseState "d" (EventRec.mk 1 true 1)
    (by decide) (by decide) (by decide) (by decide) (by decide)

/-- C3 fails on the code: the state reached by the concrete sequence
register a, register b, register c, unregister b, register d on a capacity-1
event with waitlist enabled holds two waitlisted registrations for the same
event — "c" and "d" — sharing waitlistPosition 2, because the position is
assigned as count + 1 over a waitlist made sparse by the earlier
unregistration. -/
theorem C3_duplicate_positions :
    Reachable (step sparseState (Op.reg "d")) ∧
      get_registration "c" (step sparseState (Op.reg "d")).regs =
        some (RegRec.mk "c" "waitlisted" 2 (some 2)) ∧
      get_registration "d" (step sparseState (Op.reg "d")).regs =
        some (RegRec.mk "d" "waitlisted" 3 (some 2)) :=
  ⟨Reachable.step _ (Op.reg "d") (Reachable.step _ (Op.unreg "b")
      (Reachable.step _ (Op.reg "c") (Reachable.step _ (Op.reg "b")
        (Reachable.step _ (Op.reg "a")
          (Reachable.init 1 true ["a", "b", "c", "d"]))))),
    by decide, by decide⟩

/-- C4 fails on the code: in the reachable state tieState, "z" was
registered and waitlisted (registeredAt 2) strictly before "a" (registeredAt
3), both hold waitlistPosition 2 and stayed waitlisted; the Unregister of
the confirmed user "m" then promotes "a" while "z" is still waitlisted,
because the stable position sort falls back to the store's user-id order on
the duplicated positions. -/
theorem C4_fifo_violation :
    Reachable tieState ∧
      get_registration "z" tieState.regs =
        some (RegRec.mk "z" "waitlisted" 2 (some 2)) ∧
      get_registration "a" tieState.regs =
        some (RegRec.mk "a" "waitlisted" 3 (some 2)) ∧
      get_registration "a" (step tieState (Op.unreg "m")).regs =
        some (RegRec.mk "a" "confirmed" 3 none) ∧
      get_registration "z" (step tieState (Op.unreg "m")).regs =
        some (RegRec.mk "z" "waitlisted" 2 (some 2)) :=
  ⟨Reachable.step _ (Op.reg "a") (Reachable.step _ (Op.unreg "q")
      (Reachable.step _ (Op.reg "z") (Reachable.step _ (Op.reg "q")
        (Reachable.step _ (Op.reg "m")
          (Reachable.init 1 true ["m", "q", "z", "a"]))))),
    by decide, by decide, by decide, by decide⟩

/-- C9 as stated fails on the code: in tieState the waitlisted registrations
"z" (registeredAt 2) and "a" (registeredAt 3) hold the same position 2, yet
the Unregister of the confirmed user "m" promotes "a" — the engine orders the
tied entries by the store's user-id (sort-key) order, never consulting
registeredAt, so the promoted registration is not the one with the earliest
registeredAt. -/
theorem C9_counterexample :
    (RegRec.mk "z" "waitlisted" 2 (some 2)) ∈ tieState.regs ∧
      (RegRec.mk "a" "waitlisted" 3 (some 2)) ∈ tieState.regs ∧
      get_registration "m" tieState.regs =
        some (RegRec.mk "m" "confirmed" 0 none) ∧
      get_waitlisted_registrations (delete_registration "m" tieState.regs) =
        [RegRec.mk "a" "waitlisted" 3 (some 2),
          RegRec.mk "z" "waitlisted" 2 (some 2)] ∧
      unregister tieState "m" = Except.ok { tieState with
        regs := update_registration_status "a" "confirmed" none
          (delete_registration "m" tieState.regs) } :=
  ⟨by decide, by decide, by decide, by decide, by rfl⟩

/-- C9 amended: when a confirmed user unregisters on an existing event with a
non-empty waitlist, the engine promotes a waitlisted registration of minimal
sort key, and among registrations tied with it on the position key it is the
one with the smallest user id (the store's sort-key order under the stable
sort) — registeredAt plays no role. -/
theorem C9_amended_tiebreak {s : EvState} {u : String} {reg : RegRec}
    {ev : EventRec} {first : RegRec} {rest : List RegRec}
    (hsort : sortedRegs s.regs = true)
    (hreg : get_registration u s.regs = some reg)
    (hconf : reg.registrationStatus = "confirmed")
    (hev : s.event = some ev)
    (hw : get_waitlisted_registrations (delete_registration u s.regs) =
      first :: rest) :
    unregister s u = Except.ok { s with
        regs := update_registration_status first.userId "confirmed" none
          (delete_registration u s.regs) } ∧
      first ∈ s.regs ∧ first.registrationStatus = "waitlisted" ∧
      (∀ r ∈ s.regs, r.registrationStatus = "waitlisted" →
        posKey first ≤ posKey r) ∧
      (∀ r ∈ s.regs, r.registrationStatus = "waitlisted" →
        posKey r = posKey first → ¬ r = first →
        strLt first.userId r.userId = true) := by
  have hfe := get_waitlisted_delete_confirmed hreg hconf
  have hw' : get_waitlisted_registrations s.regs = first :: rest := by
    rw [← hfe, hw]
  obtain ⟨hhm, hhw, hmin⟩ := waitlist_head_spec hw'
  have htie := waitlist_head_tie hsort hw'
  refine ⟨?_, hhm, hhw, hmin, ?_⟩
  · rw [unregister, hreg]
    simp only
    rw [if_pos hconf, hev, hw]
  · intro r hr hrw hkey hne
    rcases htie r hr hrw hkey with h | h
    · exact absurd h hne
    · exact h

theorem C9_amended_tiebreak_witness :
    unregister tieState "m" = Except.ok { tieState with
        regs := update_registration_status
          (RegRec.mk "a" "waitlisted" 3 (some 2)).userId "confirmed" none
          (delete_registration "m" tieState.regs) } ∧
      (RegRec.mk "a" "waitlisted" 3 (some 2)) ∈ tieState.regs ∧
      (RegRec.mk "a" "waitlisted" 3 (some 2)).registrationStatus =
        "waitlisted" ∧
      (∀ r ∈ tieState.regs, r.registrationStatus = "waitlisted" →
        posKey (RegRec.mk "a" "waitlisted" 3 (some 2)) ≤ posKey r) ∧
      (∀ r ∈ tieState.regs, r.registrationStatus = "waitlisted" →
        posKey r = posKey (RegRec.mk "a" "waitlisted" 3 (some 2)) →
        ¬ r = (RegRec.mk "a" "waitlisted" 3 (some 2)) →
        strLt (RegRec.mk "a" "waitlisted" 3 (some 2)).userId r.userId =
          true) :=
  @C9_amended_tiebreak tieState "m" (RegRec.mk "m" "confirmed" 0 none)
    (EventRec.mk 1 true 1) (RegRec.mk "a" "waitlisted" 3 (some 2))
    [RegRec.mk "z" "waitlisted" 2 (some 2)]
    (by decide) (by decide) (by decide) (by decide) (by decide)

/-- C5: unregistering a user whose registration is confirmed, on an existing
event having at least one waitlisted registration, succeeds with the event
item (hence confirmedCount) unchanged; exactly the waitlist head — the
waitlisted registration with the strictly minimal waitlistPosition, which the
claim presupposes to be well defined, here guaranteed by the hypotheses that
waitlisted positions are positive and pairwise distinct — has its status
flipped to confirmed and its position cleared, and every other registration
except the deleted one is untouched. -/
theorem C5_promotes_exact_head {s : EvState} {u : String} {reg : RegRec}
    {ev : EventRec} {w : RegRec}
    (hsort : sortedRegs s.regs = true)
    (hreg : get_registration u s.regs = some reg)
    (hconf : reg.registrationStatus = "confirmed")
    (hev : s.event = some ev)
    (hpos : ∀ r ∈ s.regs, r.registrationStatus = "waitlisted" →
        ∃ p, r.waitlistPosition = some p ∧ 0 < p)
    (hdist : ∀ r1 ∈ s.regs, ∀ r2 ∈ s.regs,
        r1.registrationStatus = "waitlisted" →
        r2.registrationStatus = "waitlisted" →
        r1.waitlistPosition = r2.waitlistPosition → r1 = r2)
    (hwmem : w ∈ s.regs) (hww : w.registrationStatus = "waitlisted") :
    ∃ head s',
      unregister s u = Except.ok s' ∧
      s'.event = s.event ∧
      head ∈ s.regs ∧ head.registrationStatus = "waitlisted" ∧
      (∀ r ∈ s.regs, r.registrationStatus = "waitlisted" → ¬ r = head →
          ∃ ph pr, head.waitlistPosition = some ph ∧
            r.waitlistPosition = some pr ∧ ph < pr) ∧
      s'.regs = update_registration_status head.userId "confirmed" none
          (delete_registration u s.regs) ∧
      get_registration head.userId s'.regs =
        some ({ head with registrationStatus := "confirmed",
                          waitlistPosition := none }) ∧
      (∀ r ∈ s.regs, ¬ r.userId = u → ¬ r.userId = head.userId →
          r ∈ s'.regs) ∧
      (∀ r ∈ s'.regs,
          r = { head with registrationStatus := "confirmed",
                          waitlistPosition := none } ∨ r ∈ s.regs) := by
  have hfe := get_waitlisted_delete_confirmed hreg hconf
  obtain ⟨head, rest, hw⟩ : ∃ head rest,
      get_waitlisted_registrations s.regs = head :: rest := by
    cases hgw : get_waitlisted_registrations s.regs with
    | nil => exact absurd hww (get_waitlisted_nil_no_waitlisted hgw w hwmem)
    | cons a b => exact ⟨a, b, rfl⟩
  have hwd : get_waitlisted_registrations (delete_registration u s.regs) =
      head :: rest := by rw [hfe, hw]
  obtain ⟨hhm, hhw, hmin⟩ := waitlist_head_spec hw
  have hhu : ¬ head.userId = u := by
    intro hh
    have hgm := get_registration_of_mem hsort hhm
    rw [hh, hreg] at hgm
    injection hgm with h3
    rw [h3] at hconf
    rw [hconf] at hhw
    exact absurd hhw (by decide)
  have hsortd : sortedRegs (delete_registration u s.regs) = true :=
    sortedRegs_delete hsort
  have hhd : head ∈ delete_registration u s.regs := mem_delete_of_ne hhm hhu
  have hhget : get_registration head.userId
      (delete_registration u s.regs) = some head :=
    get_registration_of_mem hsortd hhd
  have hun : unregister s u = Except.ok { s with
      regs := update_registration_status head.userId "confirmed" none
        (delete_registration u s.regs) } := by
    rw [unregister, hreg]
    simp only
    rw [if_pos hconf, hev, hwd]
  refine ⟨head, _, hun, rfl, hhm, hhw, ?_, rfl, ?_, ?_, ?_⟩
  · intro r hr hrw hne
    obtain ⟨ph, hph, hph0⟩ := hpos head hhm hhw
    obtain ⟨pr, hpr, hpr0⟩ := hpos r hr hrw
    refine ⟨ph, pr, hph, hpr, ?_⟩
    have hle : posKey head ≤ posKey r := hmin r hr hrw
    rw [posKey_eq hph hph0, posKey_eq hpr hpr0] at hle
    rcases Nat.lt_or_ge ph pr with h | h
    · exact h
    · exfalso
      have hpe : ph = pr := Nat.le_antisymm hle h
      exact hne (hdist r hr head hhm hrw hhw (by rw [hpr, hph, hpe]))
  · exact get_update_self hhget
  · intro r hr hru hrh
    exact mem_update_of_ne (mem_delete_of_ne hr hru) hrh
  · intro r hrm
    rcases mem_update hrm with hrm | ⟨y, hy, hyu, rfl⟩
    · exact Or.inr (mem_delete hrm)
    · left
      have hgy := get_registration_of_mem hsortd hy
      rw [hyu, hhget] at hgy
      injection hgy with h4
      rw [h4]

theorem C5_promotes_exact_head_witness :
    ∃ head s',
      unregister (run (initState 1 true ["a", "b", "c"])
          [Op.reg "a", Op.reg "b", Op.reg "c"]) "a" = Except.ok s' ∧
      s'.event = (run (initState 1 true ["a", "b", "c"])
          [Op.reg "a", Op.reg "b", Op.reg "c"]).event ∧
      head ∈ (run (initState 1 true ["a", "b", "c"])
          [Op.reg "a", Op.reg "b", Op.reg "c"]).regs ∧
      head.registrationStatus = "waitlisted" ∧
      (∀ r ∈ (run (initState 1 true ["a", "b", "c"])
          [Op.reg "a", Op.reg "b", Op.reg "c"]).regs,
          r.registrationStatus = "waitlisted" → ¬ r = head →
          ∃ ph pr, head.waitlistPosition = some ph ∧
            r.waitlistPosition = some pr ∧ ph < pr) ∧
      s'.regs = update_registration_status head.userId "confirmed" none
          (delete_registration "a" (run (initState 1 true ["a", "b", "c"])
            [Op.reg "a", Op.reg "b", Op.reg "c"]).regs) ∧
      get_registration head.userId s'.regs =
        some ({ head with registrationStatus := "confirmed",
                          waitlistPosition := none }) ∧
      (∀ r ∈ (run (initState 1 true ["a", "b", "c"])
          [Op.reg "a", Op.reg "b", Op.reg "c"]).regs,
          ¬ r.userId = "a" → ¬ r.userId = head.userId → r ∈ s'.regs) ∧
      (∀ r ∈ s'.regs,
          r = { head with registrationStatus := "confirmed",
                          waitlistPosition := none } ∨
            r ∈ (run (initState 1 true ["a", "b", "c"])
              [Op.reg "a", Op.reg "b", Op.reg "c"]).regs) :=
  @C5_promotes_exact_head
    (run (initState 1 true ["a", "b", "c"]) [Op.reg "a", Op.reg "b", Op.reg "c"])
    "a" (RegRec.mk "a" "confirmed" 0 none) (EventRec.mk 1 true 1)
    (RegRec.mk "b" "waitlisted" 1 (some 1))
    (by decide) (by decide) (by decide) (by decide) (by decide) (by decide)
    (by decide) (by decide)

end VaspReg
